import Mathlib

/-!
Verification development for the SINDy notebook repository.

The repository's single source file is a notebook exercising a sparse
system-identification engine (differentiation, feature library, sequential
thresholded least squares, integration).  The engine itself is not part of
the repository, only its callers are; following the specification, the
engine's components are modelled here from the spec's own description.
The notebook's own functions (`lorenz`, `integrate_lorenz`) are embedded
from the source.  All arithmetic is exact rational arithmetic.
-/

/-- Componentwise addition of two vectors represented as lists. -/
def vAdd (a b : List ℚ) : List ℚ := List.zipWith (· + ·) a b

/-- Componentwise subtraction of two vectors represented as lists. -/
def vSub (a b : List ℚ) : List ℚ := List.zipWith (· - ·) a b

/-- Scalar multiple of a vector represented as a list. -/
def vSMul (c : ℚ) (a : List ℚ) : List ℚ := a.map (fun x => c * x)

/-- Dot product of two vectors represented as lists (zip truncates). -/
def dot (a b : List ℚ) : ℚ := (List.zipWith (· * ·) a b).sum

/-- Column `j` of a row-major matrix, with implicit zero padding. -/
def colOf (M : List (List ℚ)) (j : Nat) : List ℚ := M.map (fun r => r.getD j 0)

/-- Number of columns of a row-major matrix, read off the first row. -/
def numCols (M : List (List ℚ)) : Nat := (M.headD []).length

/-- Source: the notebook's `lorenz` function.  In Python it has default
parameters `sigma=10, rho=28, beta=8/3`; here the parameters are explicit and
the default instantiation is applied at each call site that uses them. -/
def lorenz (x : List ℚ) (_t sigma rho beta : ℚ) : List ℚ :=
  [sigma * (x.getD 1 0 - x.getD 0 0),
   x.getD 0 0 * (rho - x.getD 2 0) - x.getD 1 0,
   x.getD 0 0 * x.getD 1 0 - beta * x.getD 2 0]

/-- Modelled from the spec: the ground-truth Lorenz right-hand side used by the
recovery scenario (testable property 5), with sigma = 10, rho = 28,
beta = 8/3, written as the linear combination of library terms with the
nonzero coefficients the spec lists. -/
def lorenzTrueRHS (x y z : ℚ) : List ℚ :=
  [10 * y - 10 * x, 28 * x - y - x * z, x * y - (8 / 3) * z]

/-- Modelled from the spec: the external ODE/IVP integrator consumed by the
notebook (`scipy.integrate.odeint`), which is absent from the repository.
Per the spec's integrator contract it returns the solution sampled at the
given time points, with the first sample equal to the initial state; here it
is realised as an explicit one-step scheme between consecutive time points. -/
def odeint (f : List ℚ → ℚ → List ℚ) (x0 : List ℚ) : List ℚ → List (List ℚ)
  | [] => []
  | [_] => [x0]
  | t1 :: t2 :: rest => x0 :: odeint f (vAdd x0 (vSMul (t2 - t1) (f x0 t1))) (t2 :: rest)

/-- Source: `np.arange(start, stop, step)` as used by the notebook: the values
`start + i * step` for `i = 0, 1, ...` strictly below `stop` (for a positive
step there are exactly `⌈(stop - start) / step⌉` of them). -/
def arange (start stop step : ℚ) : List ℚ :=
  (List.range (Int.ceil ((stop - start) / step)).toNat).map
    (fun (i : ℕ) => start + (i : ℚ) * step)

/-- Source: the notebook's `integrate_lorenz`.  Python defaults are
`lorenz_function=None, dt=0.002, tmax=10, x0=[-8, 8, 27]`; the arguments are
explicit here.  When `lorenz_function` is `none` the default Lorenz
right-hand side (the lambda `x, t ↦ lorenz x t` with its default
parameters) is integrated over `np.arange 0 tmax dt`. -/
def integrate_lorenz (lorenz_function : Option (List ℚ → ℚ → List ℚ))
    (dt tmax : ℚ) (x0 : List ℚ) : List (List ℚ) :=
  let f := lorenz_function.getD (fun x t => lorenz x t 10 28 (8 / 3))
  let t := arange 0 tmax dt
  odeint f x0 t

/-- Modelled from the spec: the library configuration of the FeatureLibrary
component, which is absent from the repository — a polynomial part with a
configured total degree (the notebook uses `PolynomialLibrary`, default
degree 2 with a bias column) and a trigonometric part with a list of
configured frequencies (sin and cos of each state dimension). -/
structure LibraryConfig where
  degree : Nat
  trigFreqs : List ℚ

/-- Combinations with repetition: all multisets of size `k` drawn from `xs`,
each represented as a list ordered consistently with `xs`. -/
def combRep : List Nat → Nat → List (List Nat)
  | _, 0 => [[]]
  | [], _ + 1 => []
  | a :: as, k + 1 =>
      ((combRep (a :: as) k).map (fun t => a :: t)) ++ combRep as (k + 1)
termination_by xs k => xs.length + k

/-- Runs of equal indices in a monomial, as (index, exponent) pairs. -/
def powFold : List Nat → List (Nat × Nat)
  | [] => []
  | i :: rest =>
    match powFold rest with
    | (j, e) :: t => if i = j then (j, e + 1) :: t else (i, 1) :: (j, e) :: t
    | [] => [(i, 1)]

/-- Human-readable factor for one (index, exponent) pair, e.g. "x0" or "x0^2". -/
def powString (p : Nat × Nat) : String :=
  if p.2 = 1 then "x" ++ toString p.1 else "x" ++ toString p.1 ++ "^" ++ toString p.2

/-- Human-readable name of a monomial given as a multiset of state indices;
the empty monomial is the bias term "1". -/
def monomialName (ms : List Nat) : String :=
  if ms.isEmpty then "1" else String.intercalate " " ((powFold ms).map powString)

/-- All monomial index multisets of the polynomial sub-library, total degrees
0 through `d`, over `m` state dimensions, in a fixed deterministic order. -/
def polyMonos (m d : Nat) : List (List Nat) :=
  ((List.range (d + 1)).map (fun k => combRep (List.range m) k)).flatten

/-- Name of the sin feature of state dimension `i` at frequency `f`. -/
def sinName (f : ℚ) (i : Nat) : String :=
  "sin(" ++ toString f ++ " x" ++ toString i ++ ")"

/-- Name of the cos feature of state dimension `i` at frequency `f`. -/
def cosName (f : ℚ) (i : Nat) : String :=
  "cos(" ++ toString f ++ " x" ++ toString i ++ ")"

/-- Ordered names of the trigonometric sub-library for `m` state dimensions. -/
def trigNames (freqs : List ℚ) (m : Nat) : List String :=
  (freqs.map (fun f =>
    ((List.range m).map (fun i => sinName f i))
      ++ ((List.range m).map (fun i => cosName f i)))).flatten

/-- Ordered name list of the whole library: a pure function of the state
width `m` and the configuration, per the spec's determinism invariant. -/
def libNames (cfg : LibraryConfig) (m : Nat) : List String :=
  (polyMonos m cfg.degree).map monomialName ++ trigNames cfg.trigFreqs m

/-- Value of the monomial `ms` on the state row `x`. -/
def monomialEval (x : List ℚ) (ms : List Nat) : ℚ :=
  (ms.map (fun i => x.getD i 0)).prod

/-- Modelled from the spec: `fit_transform` of the FeatureLibrary component,
which is absent from the repository.  Given an n × m state matrix it returns
the n × l feature matrix together with the ordered name list; the
transcendental evaluations are supplied by the oracles `sinF`/`cosF` (exact
sin/cos are not rational).  Column order matches the name list. -/
def fit_transform (cfg : LibraryConfig) (sinF cosF : ℚ → ℚ) (X : List (List ℚ)) :
    List (List ℚ) × List String :=
  let m := numCols X
  let monos := polyMonos m cfg.degree
  (X.map (fun x =>
      monos.map (monomialEval x)
        ++ (cfg.trigFreqs.map (fun f =>
              ((List.range m).map (fun i => sinF (f * x.getD i 0)))
                ++ ((List.range m).map (fun i => cosF (f * x.getD i 0))))).flatten),
   libNames cfg m)

/-- Modelled from the spec: the time argument of `differentiate` — either a
scalar step or an explicit time sequence. -/
inductive TimeSpec where
  | step : ℚ → TimeSpec
  | seq : List ℚ → TimeSpec

/-- Modelled from the spec: the Differentiator's failure taxonomy. -/
inductive DiffError where
  | insufficientSamples : DiffError
  | nonMonotonicTime : DiffError
  | shapeMismatch : DiffError
deriving DecidableEq

/-- Minimum stencil width of the order-2 finite-difference scheme. -/
def minStencil : Nat := 3

/-- Effective time points of a time argument for `n` samples: a scalar step
`dt` denotes the uniform grid `0, dt, 2*dt, ...`. -/
def effTimes : TimeSpec → Nat → List ℚ
  | .step dt, n => (List.range n).map (fun (i : ℕ) => (i : ℚ) * dt)
  | .seq ts, _ => ts

/-- Lagrange weight at node `ta` of the three-point derivative stencil with
nodes `ta, tb, tc`, evaluated at `tau`. -/
def lwA (ta tb tc tau : ℚ) : ℚ := (2 * tau - tb - tc) / ((ta - tb) * (ta - tc))

/-- Lagrange weight at node `tb` of the three-point derivative stencil. -/
def lwB (ta tb tc tau : ℚ) : ℚ := (2 * tau - ta - tc) / ((tb - ta) * (tb - tc))

/-- Lagrange weight at node `tc` of the three-point derivative stencil. -/
def lwC (ta tb tc tau : ℚ) : ℚ := (2 * tau - ta - tb) / ((tc - ta) * (tc - tb))

/-- First stencil node index for sample `i` of `n`: a centred three-point
stencil in the interior and one-sided three-point stencils at the two
boundaries, so every sample receives an estimate. -/
def stA (n i : Nat) : Nat := if i = 0 then 0 else if i = n - 1 then n - 3 else i - 1

/-- Second stencil node index for sample `i` of `n`. -/
def stB (n i : Nat) : Nat := if i = 0 then 1 else if i = n - 1 then n - 2 else i

/-- Third stencil node index for sample `i` of `n`. -/
def stC (n i : Nat) : Nat := if i = 0 then 2 else if i = n - 1 then n - 1 else i + 1

/-- Row-wise generalized finite differences: row `i` of the output is the
weighted combination of the three stencil rows, with weights recomputed
per-sample from the local spacing of the time points `ts`. -/
def fdRows (X : List (List ℚ)) (ts : List ℚ) : List (List ℚ) :=
  (List.range X.length).map (fun i =>
    vAdd (vAdd
        (vSMul (lwA (ts.getD (stA X.length i) 0) (ts.getD (stB X.length i) 0)
            (ts.getD (stC X.length i) 0) (ts.getD i 0))
          (X.getD (stA X.length i) []))
        (vSMul (lwB (ts.getD (stA X.length i) 0) (ts.getD (stB X.length i) 0)
            (ts.getD (stC X.length i) 0) (ts.getD i 0))
          (X.getD (stB X.length i) [])))
      (vSMul (lwC (ts.getD (stA X.length i) 0) (ts.getD (stB X.length i) 0)
          (ts.getD (stC X.length i) 0) (ts.getD i 0))
        (X.getD (stC X.length i) [])))

/-- Test that a list of time points is strictly increasing. -/
def strictIncr : List ℚ → Bool
  | [] => true
  | [_] => true
  | a :: b :: rest => decide (a < b) && strictIncr (b :: rest)

/-- Modelled from the spec: `differentiate(X, t)` of the Differentiator
component, which is absent from the repository.  Validates its input —
`InsufficientSamples` when there are fewer rows than the minimum stencil
width, `ShapeMismatch` when an explicit time sequence has the wrong length,
`NonMonotonicTime` when it is not strictly increasing — and otherwise
estimates the derivative matrix by order-2 finite differences. -/
def differentiate (X : List (List ℚ)) (t : TimeSpec) :
    Except DiffError (List (List ℚ)) :=
  if X.length < minStencil then .error .insufficientSamples
  else
    match t with
    | .step dt => .ok (fdRows X (effTimes (.step dt) X.length))
    | .seq ts =>
      if ts.length ≠ X.length then .error .shapeMismatch
      else if strictIncr ts = false then .error .nonMonotonicTime
      else .ok (fdRows X ts)

/-- Validity of a time argument for a trajectory `X`, per the spec's
contract: a positive scalar step, or a strictly increasing sequence whose
length matches the row count. -/
def ValidTime (X : List (List ℚ)) : TimeSpec → Prop
  | .step dt => 0 < dt
  | .seq ts => ts.length = X.length ∧ strictIncr ts = true

/-- First row with a nonzero leading entry, and the remaining rows. -/
def pickPivot : List (List ℚ) → Option (List ℚ × List (List ℚ))
  | [] => none
  | r :: rs =>
    if r.headD 0 ≠ 0 then some (r, rs)
    else
      match pickPivot rs with
      | none => none
      | some (p, rest) => some (p, r :: rest)

/-- Exact Gaussian elimination on an augmented linear system: `n` unknowns,
each row holding `n` coefficients followed by the right-hand side.  Returns
`none` when no nonzero pivot exists (a rank-deficient system, the spec's
`SingularSystem` signal). -/
def gaussSolve : Nat → List (List ℚ) → Option (List ℚ)
  | 0, _ => some []
  | n + 1, rows =>
    match pickPivot rows with
    | none => none
    | some (p, rest) =>
      match gaussSolve n (rest.map (fun r =>
          vSub r.tail (vSMul (r.headD 0 / p.headD 0) p.tail))) with
      | none => none
      | some xs =>
        some (((p.tail.getD n 0 - dot (p.tail.take n) xs) / p.headD 0) :: xs)

/-- Normal equations `ΘᵀΘ ξ = Θᵀ y` of the plain least-squares problem, as an
augmented system. -/
def normalSystem (Th : List (List ℚ)) (y : List ℚ) : List (List ℚ) :=
  (List.range (numCols Th)).map (fun j =>
    ((List.range (numCols Th)).map (fun k => dot (colOf Th j) (colOf Th k)))
      ++ [dot (colOf Th j) y])

/-- Augmented system of the ridge-regularized least-squares problem restricted
to the active feature columns: on the active block it is
`ΘₐᵀΘₐ + alpha·I` with right-hand side `Θₐᵀy`; each inactive coordinate gets
the row of the identity with right-hand side 0, forcing its coefficient to
zero. -/
def ridgeMaskedSystem (Th : List (List ℚ)) (y : List ℚ) (alpha : ℚ)
    (active : List Bool) : List (List ℚ) :=
  (List.range (numCols Th)).map (fun j =>
    ((List.range (numCols Th)).map (fun k =>
      if active.getD j false && active.getD k false then
        dot (colOf Th j) (colOf Th k) + (if j = k then alpha else 0)
      else if j = k then 1 else 0))
    ++ [if active.getD j false then dot (colOf Th j) y else 0])

/-- Ridge least squares restricted to the active feature set (step 1 of the
spec's STLSQ iteration). -/
def ridgeLS (Th : List (List ℚ)) (y : List ℚ) (alpha : ℚ)
    (active : List Bool) : Option (List ℚ) :=
  gaussSolve (numCols Th) (ridgeMaskedSystem Th y alpha active)

/-- One STLSQ iteration for one target column: solve the restricted ridge
least-squares problem, zero every coefficient with `|coef| < threshold`
(strict comparison, per the spec's tie-break), and remove the zeroed
features from the active set. -/
def stlsqStep (Th : List (List ℚ)) (y : List ℚ) (thr alpha : ℚ)
    (active : List Bool) : Option (List ℚ × List Bool) :=
  (ridgeLS Th y alpha active).map (fun xi =>
    (xi.map (fun c => if |c| < thr then 0 else c),
     List.zipWith (fun a c => if |c| < thr then false else a) active xi))

/-- Modelled from the spec: the STLSQ iteration for one target column, which
is absent from the repository.  Iterates `stlsqStep` until the active-set
pattern is unchanged (fixed point) or the iteration budget is exhausted,
whichever comes first; also returns the number of iterations performed. -/
def stlsqLoopAux (Th : List (List ℚ)) (y : List ℚ) (thr alpha : ℚ) :
    Nat → List Bool → Option (List ℚ) × Nat
  | 0, _ => (some (List.replicate (numCols Th) 0), 0)
  | fuel + 1, active =>
    match stlsqStep Th y thr alpha active with
    | none => (none, 1)
    | some (xi, active') =>
      if active' = active ∨ fuel = 0 then (some xi, 1)
      else
        ((stlsqLoopAux Th y thr alpha fuel active').1,
         (stlsqLoopAux Th y thr alpha fuel active').2 + 1)

/-- Number of STLSQ iterations performed for one target column. -/
def stlsqSteps (Th : List (List ℚ)) (y : List ℚ) (thr alpha : ℚ)
    (maxIter : Nat) (active : List Bool) : Nat :=
  (stlsqLoopAux Th y thr alpha maxIter active).2

/-- Coefficient vector of one target column after the STLSQ iteration,
starting from the fully active feature set. -/
def solveColumn (Th : List (List ℚ)) (y : List ℚ) (thr : ℚ) (maxIter : Nat)
    (alpha : ℚ) : Option (List ℚ) :=
  (stlsqLoopAux Th y thr alpha maxIter (List.replicate (numCols Th) true)).1

/-- Collect a list of optional columns, failing if any column failed. -/
def optList : List (Option (List ℚ)) → Option (List (List ℚ))
  | [] => some []
  | o :: os =>
    match o with
    | none => none
    | some x => (optList os).map (fun xs => x :: xs)

/-- Modelled from the spec: `solve(Θ, Xdot, threshold, max_iter, ridge_alpha)`
of the SparseOptimizer, which is absent from the repository.  Solves each
target column of `Xdot` independently by sequential thresholded least
squares.  The coefficient matrix Ξ is represented column-major: entry `j` of
the result is the coefficient vector of target column `j`. -/
def solve (Th Xdot : List (List ℚ)) (thr : ℚ) (maxIter : Nat) (alpha : ℚ) :
    Option (List (List ℚ)) :=
  optList ((List.range (numCols Xdot)).map
    (fun j => solveColumn Th (colOf Xdot j) thr maxIter alpha))

/-- Modelled from the spec: a direct (unthresholded, unregularized)
least-squares solve of `Θ ξ = Xdot`, independently for each target column,
via the normal equations — the reference the optimizer-reduction property
compares against.  Column-major, like `solve`. -/
def directLeastSquares (Th Xdot : List (List ℚ)) : Option (List (List ℚ)) :=
  optList ((List.range (numCols Xdot)).map
    (fun j => gaussSolve (numCols Th) (normalSystem Th (colOf Xdot j))))

/-- Number of nonzero entries of an optional coefficient matrix (0 for a
failed solve). -/
def nnzOpt : Option (List (List ℚ)) → Nat
  | none => 0
  | some M => (M.map (fun r => r.countP (fun c => decide (¬ c = 0)))).sum

/-- Identity-augmented system: the identity matrix with zero right-hand
sides; the restricted system of a fully inactive feature set. -/
def idAug (l : Nat) : List (List ℚ) :=
  (List.range l).map (fun j =>
    ((List.range l).map (fun k => if j = k then (1 : ℚ) else 0)) ++ [(0 : ℚ)])

/-! ### Theorems -/

theorem odeint_length (f : List ℚ → ℚ → List ℚ) (x0 : List ℚ) (ts : List ℚ) :
    (odeint f x0 ts).length = ts.length := by
  induction ts generalizing x0 with
  | nil => rfl
  | cons t rest ih =>
    cases rest with
    | nil => rfl
    | cons t2 r => simpa [odeint] using ih (vAdd x0 (vSMul (t2 - t) (f x0 t)))

theorem odeint_head (f : List ℚ → ℚ → List ℚ) (x0 : List ℚ) (ts : List ℚ)
    (h : ts ≠ []) : (odeint f x0 ts).headD [] = x0 := by
  cases ts with
  | nil => exact absurd rfl h
  | cons t rest => cases rest <;> rfl

theorem vAdd_length (a b : List ℚ) : (vAdd a b).length = min a.length b.length := by
  simp [vAdd]

theorem vSMul_length (c : ℚ) (a : List ℚ) : (vSMul c a).length = a.length := by
  simp [vSMul]

theorem odeint_row_length (f : List ℚ → ℚ → List ℚ) (m : Nat)
    (hf : ∀ x t, (f x t).length = m) (x0 : List ℚ) (hx : x0.length = m)
    (ts : List ℚ) : ∀ r ∈ odeint f x0 ts, r.length = m := by
  induction ts generalizing x0 with
  | nil => intro r hr; simp [odeint] at hr
  | cons t rest ih =>
    cases rest with
    | nil =>
      intro r hr
      simp [odeint] at hr
      simpa [hr] using hx
    | cons t2 rr =>
      intro r hr
      simp only [odeint, List.mem_cons] at hr
      rcases hr with h | h
      · simpa [h] using hx
      · refine ih (vAdd x0 (vSMul (t2 - t) (f x0 t))) ?_ r h
        simp [vAdd_length, vSMul_length, hx, hf]

theorem lorenz_length (x : List ℚ) (t s r b : ℚ) : (lorenz x t s r b).length = 3 := rfl

theorem arange_ne_nil (stop step : ℚ) (hstep : 0 < step) (hstop : 0 < stop) :
    arange 0 stop step ≠ [] := by
  have hpos : 0 < ⌈(stop - 0) / step⌉ := by
    rw [Int.ceil_pos]
    exact div_pos (by simpa using hstop) hstep
  intro hcon
  rw [arange, List.map_eq_nil_iff, List.range_eq_nil, Int.toNat_eq_zero] at hcon
  omega

/-- C9: the notebook's `lorenz` function, for every 3-element state
`[x0, x1, x2]` and any `t`, with the default parameters `sigma = 10`,
`rho = 28`, `beta = 8/3`, returns exactly
`[sigma*(x1 - x0), x0*(rho - x2) - x1, x0*x1 - beta*x2]`, which is the
ground-truth Lorenz right-hand side of the recovery scenario. -/
theorem lorenz_implements_ground_truth (x0 x1 x2 t : ℚ) :
    lorenz [x0, x1, x2] t 10 28 (8 / 3)
      = [10 * (x1 - x0), x0 * (28 - x2) - x1, x0 * x1 - (8 / 3) * x2] ∧
    lorenz [x0, x1, x2] t 10 28 (8 / 3) = lorenzTrueRHS x0 x1 x2 := by
  constructor
  · rfl
  · simp only [lorenz, lorenzTrueRHS, List.getD]
    norm_num
    constructor <;> ring

/-- C10: `integrate_lorenz` with `lorenz_function = none` integrates the
default Lorenz right-hand side (sigma = 10, rho = 28, beta = 8/3) over the
time points `np.arange 0 tmax dt`: the result has one row per time point,
three columns in every row, and its first row is the initial state `x0`. -/
theorem integrate_lorenz_shape_head_default (dt tmax : ℚ) (x0 : List ℚ)
    (hdt : 0 < dt) (htmax : 0 < tmax) (hx0 : x0.length = 3) :
    integrate_lorenz none dt tmax x0
        = odeint (fun x t => lorenz x t 10 28 (8 / 3)) x0 (arange 0 tmax dt) ∧
    (integrate_lorenz none dt tmax x0).length = (arange 0 tmax dt).length ∧
    (∀ r ∈ integrate_lorenz none dt tmax x0, r.length = 3) ∧
    (integrate_lorenz none dt tmax x0).headD [] = x0 := by
  refine ⟨rfl, odeint_length _ _ _, ?_, ?_⟩
  · exact odeint_row_length _ 3 (fun x t => lorenz_length x t _ _ _) x0 hx0 _
  · exact odeint_head _ _ _ (arange_ne_nil tmax dt hdt htmax)

/-- Witness for C10 at the concrete input `dt = 1/2`, `tmax = 1`,
`x0 = [-8, 8, 27]`. -/
theorem integrate_lorenz_shape_head_default_witness :
    (0 : ℚ) < 1 / 2 ∧ (0 : ℚ) < 1 ∧ ([(-8 : ℚ), 8, 27]).length = 3 ∧
    ((integrate_lorenz none (1 / 2) 1 [(-8 : ℚ), 8, 27]).length
        = (arange 0 1 (1 / 2)).length ∧
      (integrate_lorenz none (1 / 2) 1 [(-8 : ℚ), 8, 27]).headD [] = [(-8 : ℚ), 8, 27]) :=
  ⟨by norm_num, by norm_num, by decide,
    ⟨(integrate_lorenz_shape_head_default (1 / 2) 1 [(-8 : ℚ), 8, 27]
        (by norm_num) (by norm_num) (by decide)).2.1,
      (integrate_lorenz_shape_head_default (1 / 2) 1 [(-8 : ℚ), 8, 27]
        (by norm_num) (by norm_num) (by decide)).2.2.2⟩⟩

theorem combRep_length (xs : List Nat) (k : Nat) :
    (combRep xs k).length = Nat.multichoose xs.length k := by
  induction xs, k using combRep.induct with
  | case1 xs => simp [combRep]
  | case2 k => simp [combRep]
  | case3 a as k ih1 ih2 =>
    simp only [combRep, List.length_append, List.length_map, ih1, ih2,
      List.length_cons, Nat.multichoose_succ_succ]
    omega

theorem sum_multichoose (m d : Nat) :
    ((List.range (d + 1)).map (fun k => Nat.multichoose m k)).sum
      = (m + d).choose d := by
  induction d with
  | zero => simp [List.range_succ]
  | succ d ih =>
    rw [List.range_succ, List.map_append, List.sum_append]
    simp only [ih, List.map_cons, List.map_nil, List.sum_cons, List.sum_nil]
    rw [Nat.multichoose_eq]
    have h1 : m + (d + 1) - 1 = m + d := by omega
    rw [h1, Nat.add_zero]
    have h2 : m + (d + 1) = (m + d) + 1 := by omega
    rw [h2, Nat.choose_succ_succ]

theorem polyMonos_length (m d : Nat) :
    (polyMonos m d).length = (m + d).choose d := by
  rw [polyMonos, List.length_flatten, List.map_map]
  have : ((List.range (d + 1)).map (List.length ∘ fun k => combRep (List.range m) k))
      = (List.range (d + 1)).map (fun k => Nat.multichoose m k) := by
    apply List.map_congr_left
    intro k _
    simp [Function.comp, combRep_length]
  rw [this, sum_multichoose]

theorem trigNames_length (freqs : List ℚ) (m : Nat) :
    (trigNames freqs m).length = 2 * m * freqs.length := by
  induction freqs with
  | nil => simp [trigNames]
  | cons f fs ih =>
    simp only [trigNames, List.map_cons, List.flatten_cons, List.length_append,
      List.length_map, List.length_range, List.length_cons]
    have ih' := ih
    simp only [trigNames] at ih'
    rw [ih']
    ring

theorem libNames_length (cfg : LibraryConfig) (m : Nat) :
    (libNames cfg m).length
      = (m + cfg.degree).choose cfg.degree + 2 * m * cfg.trigFreqs.length := by
  simp [libNames, polyMonos_length, trigNames_length]

/-- C6: for a fixed library configuration and state width `m`, the name list
returned by `fit_transform` is identical across repeated calls and across any
two input state matrices of width `m` (and any transcendental oracles) — it
is the pure function `libNames` of `(m, configuration)` — and its length is
the closed-form count `(m + d).choose d + 2 * m * #frequencies`. -/
theorem library_names_deterministic_and_counted (cfg : LibraryConfig)
    (m : Nat) (X₁ X₂ : List (List ℚ)) (s₁ c₁ s₂ c₂ : ℚ → ℚ)
    (h₁ : numCols X₁ = m) (h₂ : numCols X₂ = m) :
    (fit_transform cfg s₁ c₁ X₁).2 = (fit_transform cfg s₂ c₂ X₂).2 ∧
    (fit_transform cfg s₁ c₁ X₁).2.length
      = (m + cfg.degree).choose cfg.degree + 2 * m * cfg.trigFreqs.length := by
  constructor
  · simp [fit_transform, h₁, h₂]
  · simp [fit_transform, h₁, libNames_length]

/-- Witness for C6: degree-2 polynomial library on two different 1 × 3 state
matrices produces the same name list of the predicted length 10. -/
theorem library_names_deterministic_and_counted_witness :
    numCols [[(1 : ℚ), 2, 3]] = 3 ∧ numCols [[(0 : ℚ), 0, 0]] = 3 ∧
    ((fit_transform ⟨2, []⟩ id id [[(1 : ℚ), 2, 3]]).2
        = (fit_transform ⟨2, []⟩ id id [[(0 : ℚ), 0, 0]]).2 ∧
      (fit_transform ⟨2, []⟩ id id [[(1 : ℚ), 2, 3]]).2.length
        = (3 + 2).choose 2 + 2 * 3 * 0) :=
  ⟨by decide, by decide,
    library_names_deterministic_and_counted ⟨2, []⟩ 3 [[(1 : ℚ), 2, 3]]
      [[(0 : ℚ), 0, 0]] id id id id (by decide) (by decide)⟩

theorem strictIncr_iff_chain' (ts : List ℚ) :
    strictIncr ts = true ↔ List.Chain' (· < ·) ts := by
  induction ts with
  | nil => simp [strictIncr]
  | cons a rest ih =>
    cases rest with
    | nil => simp [strictIncr]
    | cons b rr =>
      simp only [strictIncr, Bool.and_eq_true, decide_eq_true_eq,
        List.chain'_cons] at ih ⊢
      rw [ih]

theorem threePointExact (A B C ta tb tc tau : ℚ)
    (hab : ta ≠ tb) (hac : ta ≠ tc) (hbc : tb ≠ tc) :
    lwA ta tb tc tau * (A * ta ^ 2 + B * ta + C)
      + lwB ta tb tc tau * (A * tb ^ 2 + B * tb + C)
      + lwC ta tb tc tau * (A * tc ^ 2 + B * tc + C) = 2 * A * tau + B := by
  have h1 : ta - tb ≠ 0 := sub_ne_zero.mpr hab
  have h2 : ta - tc ≠ 0 := sub_ne_zero.mpr hac
  have h3 : tb - tc ≠ 0 := sub_ne_zero.mpr hbc
  have h4 : tb - ta ≠ 0 := sub_ne_zero.mpr (Ne.symm hab)
  have h5 : tc - ta ≠ 0 := sub_ne_zero.mpr (Ne.symm hac)
  have h6 : tc - tb ≠ 0 := sub_ne_zero.mpr (Ne.symm hbc)
  rw [lwA, lwB, lwC]
  field_simp
  ring

theorem vSMul_map (w : ℚ) (cs : List (ℚ × ℚ × ℚ)) (f : ℚ × ℚ × ℚ → ℚ) :
    vSMul w (cs.map f) = cs.map (fun p => w * f p) := by
  simp [vSMul, List.map_map, Function.comp_def]

theorem vAdd_map_map (cs : List (ℚ × ℚ × ℚ)) (f g : ℚ × ℚ × ℚ → ℚ) :
    vAdd (cs.map f) (cs.map g) = cs.map (fun p => f p + g p) := by
  induction cs with
  | nil => rfl
  | cons p rest ih => simp [vAdd] at ih ⊢

theorem chain'_lt_getElem (ts : List ℚ) (h : List.Chain' (· < ·) ts)
    (i j : Nat) (hij : i < j) (hj : j < ts.length) :
    ts[i] < ts[j] := by
  have hp := List.chain'_iff_pairwise.mp h
  exact List.pairwise_iff_getElem.mp hp i j (Nat.lt_trans hij hj) hj hij

theorem stA_lt (n i : Nat) (hn : 3 ≤ n) (hi : i < n) : stA n i < n := by
  rw [stA]
  by_cases h0 : i = 0
  · rw [if_pos h0]; omega
  · rw [if_neg h0]
    by_cases h1 : i = n - 1
    · rw [if_pos h1]; omega
    · rw [if_neg h1]; omega

theorem stB_lt (n i : Nat) (hn : 3 ≤ n) (hi : i < n) : stB n i < n := by
  rw [stB]
  by_cases h0 : i = 0
  · rw [if_pos h0]; omega
  · rw [if_neg h0]
    by_cases h1 : i = n - 1
    · rw [if_pos h1]; omega
    · rw [if_neg h1]; omega

theorem stC_lt (n i : Nat) (hn : 3 ≤ n) (hi : i < n) : stC n i < n := by
  rw [stC]
  by_cases h0 : i = 0
  · rw [if_pos h0]; omega
  · rw [if_neg h0]
    by_cases h1 : i = n - 1
    · rw [if_pos h1]; omega
    · rw [if_neg h1]; omega

theorem fdRows_length (X : List (List ℚ)) (ts : List ℚ) :
    (fdRows X ts).length = X.length := by
  simp [fdRows]

theorem fd_entry_exact (cs : List (ℚ × ℚ × ℚ)) (ts : List ℚ) (a b c i : Nat)
    (hmono : List.Chain' (· < ·) ts)
    (hab : a < b) (hbc : b < c) (hc : c < ts.length) (hi : i < ts.length) :
    vAdd (vAdd
        (vSMul (lwA (ts.getD a 0) (ts.getD b 0) (ts.getD c 0) (ts.getD i 0))
          ((ts.map (fun tau => cs.map
              (fun p => p.1 * tau ^ 2 + p.2.1 * tau + p.2.2))).getD a []))
        (vSMul (lwB (ts.getD a 0) (ts.getD b 0) (ts.getD c 0) (ts.getD i 0))
          ((ts.map (fun tau => cs.map
              (fun p => p.1 * tau ^ 2 + p.2.1 * tau + p.2.2))).getD b [])))
      (vSMul (lwC (ts.getD a 0) (ts.getD b 0) (ts.getD c 0) (ts.getD i 0))
        ((ts.map (fun tau => cs.map
            (fun p => p.1 * tau ^ 2 + p.2.1 * tau + p.2.2))).getD c []))
    = cs.map (fun p => 2 * p.1 * (ts[i]) + p.2.1) := by
  have ha : a < ts.length := Nat.lt_trans (Nat.lt_trans hab hbc) hc
  have hb : b < ts.length := Nat.lt_trans hbc hc
  have hXa : (ts.map (fun tau => cs.map
      (fun p => p.1 * tau ^ 2 + p.2.1 * tau + p.2.2))).getD a []
      = cs.map (fun p => p.1 * (ts[a]) ^ 2 + p.2.1 * (ts[a]) + p.2.2) := by
    rw [List.getD_eq_getElem _ _ (by simpa using ha), List.getElem_map]
  have hXb : (ts.map (fun tau => cs.map
      (fun p => p.1 * tau ^ 2 + p.2.1 * tau + p.2.2))).getD b []
      = cs.map (fun p => p.1 * (ts[b]) ^ 2 + p.2.1 * (ts[b]) + p.2.2) := by
    rw [List.getD_eq_getElem _ _ (by simpa using hb), List.getElem_map]
  have hXc : (ts.map (fun tau => cs.map
      (fun p => p.1 * tau ^ 2 + p.2.1 * tau + p.2.2))).getD c []
      = cs.map (fun p => p.1 * (ts[c]) ^ 2 + p.2.1 * (ts[c]) + p.2.2) := by
    rw [List.getD_eq_getElem _ _ (by simpa using hc), List.getElem_map]
  have hta : ts.getD a 0 = ts[a] := List.getD_eq_getElem _ _ ha
  have htb : ts.getD b 0 = ts[b] := List.getD_eq_getElem _ _ hb
  have htc : ts.getD c 0 = ts[c] := List.getD_eq_getElem _ _ hc
  have hti : ts.getD i 0 = ts[i] := List.getD_eq_getElem _ _ hi
  rw [hXa, hXb, hXc, hta, htb, htc, hti]
  rw [vSMul_map, vSMul_map, vSMul_map, vAdd_map_map, vAdd_map_map]
  apply List.map_congr_left
  intro p _
  exact threePointExact p.1 p.2.1 p.2.2 _ _ _ _
    (ne_of_lt (chain'_lt_getElem ts hmono a b hab hb))
    (ne_of_lt (chain'_lt_getElem ts hmono a c (Nat.lt_trans hab hbc) hc))
    (ne_of_lt (chain'_lt_getElem ts hmono b c hbc hc))

theorem fdRows_exact (cs : List (ℚ × ℚ × ℚ)) (ts : List ℚ)
    (hn : 3 ≤ ts.length) (hmono : List.Chain' (· < ·) ts) :
    fdRows (ts.map (fun tau => cs.map
        (fun p => p.1 * tau ^ 2 + p.2.1 * tau + p.2.2))) ts
      = ts.map (fun tau => cs.map (fun p => 2 * p.1 * tau + p.2.1)) := by
  apply List.ext_getElem
  · simp [fdRows_length]
  intro i hi1 hi2
  have hin : i < ts.length := by simpa [fdRows_length] using hi1
  simp only [fdRows, List.getElem_map, List.getElem_range, List.length_map]
  by_cases h0 : i = 0
  · have ha : stA ts.length i = 0 := by rw [stA, if_pos h0]
    have hb : stB ts.length i = 1 := by rw [stB, if_pos h0]
    have hc : stC ts.length i = 2 := by rw [stC, if_pos h0]
    rw [ha, hb, hc]
    exact fd_entry_exact cs ts 0 1 2 i hmono (by omega) (by omega) (by omega) hin
  · by_cases h1 : i = ts.length - 1
    · have ha : stA ts.length i = ts.length - 3 := by
        rw [stA, if_neg h0, if_pos h1]
      have hb : stB ts.length i = ts.length - 2 := by
        rw [stB, if_neg h0, if_pos h1]
      have hc : stC ts.length i = ts.length - 1 := by
        rw [stC, if_neg h0, if_pos h1]
      rw [ha, hb, hc]
      exact fd_entry_exact cs ts (ts.length - 3) (ts.length - 2) (ts.length - 1) i
        hmono (by omega) (by omega) (by omega) hin
    · have ha : stA ts.length i = i - 1 := by rw [stA, if_neg h0, if_neg h1]
      have hb : stB ts.length i = i := by rw [stB, if_neg h0, if_neg h1]
      have hc : stC ts.length i = i + 1 := by rw [stC, if_neg h0, if_neg h1]
      rw [ha, hb, hc]
      exact fd_entry_exact cs ts (i - 1) i (i + 1) i hmono (by omega) (by omega)
        (by omega) hin

theorem fdRows_row_length (X : List (List ℚ)) (ts : List ℚ) (m : Nat)
    (hrect : ∀ r ∈ X, r.length = m) (hn : 3 ≤ X.length) :
    ∀ r ∈ fdRows X ts, r.length = m := by
  intro r hr
  rw [fdRows] at hr
  simp only [List.mem_map, List.mem_range] at hr
  obtain ⟨i, hi, rfl⟩ := hr
  have hXa : (X.getD (stA X.length i) []).length = m := by
    rw [List.getD_eq_getElem _ _ (stA_lt X.length i hn hi)]
    exact hrect _ (List.getElem_mem _)
  have hXb : (X.getD (stB X.length i) []).length = m := by
    rw [List.getD_eq_getElem _ _ (stB_lt X.length i hn hi)]
    exact hrect _ (List.getElem_mem _)
  have hXc : (X.getD (stC X.length i) []).length = m := by
    rw [List.getD_eq_getElem _ _ (stC_lt X.length i hn hi)]
    exact hrect _ (List.getElem_mem _)
  simp only [vAdd_length, vSMul_length, hXa, hXb, hXc, min_self]

/-- C3: for every trajectory sampled from per-column quadratic polynomials
(degree at most the configured order 2) at the effective time points of a
valid time argument, `differentiate` reproduces the analytic derivative of
each polynomial at every sample exactly (exact rational arithmetic subsumes
the spec's floating-point tolerance). -/
theorem differentiate_exact_on_quadratics (cs : List (ℚ × ℚ × ℚ))
    (t : TimeSpec) (n : Nat) (hn : 3 ≤ n) (hlen : (effTimes t n).length = n)
    (hmono : strictIncr (effTimes t n) = true) :
    differentiate ((effTimes t n).map (fun tau => cs.map
        (fun p => p.1 * tau ^ 2 + p.2.1 * tau + p.2.2))) t
      = .ok ((effTimes t n).map (fun tau => cs.map
        (fun p => 2 * p.1 * tau + p.2.1))) := by
  have hch : List.Chain' (· < ·) (effTimes t n) :=
    (strictIncr_iff_chain' _).mp hmono
  have hX : ((effTimes t n).map (fun tau => cs.map
      (fun p => p.1 * tau ^ 2 + p.2.1 * tau + p.2.2))).length = n := by
    simp [hlen]
  cases t with
  | step dt =>
    rw [differentiate, if_neg (by rw [hX]; exact Nat.not_lt.mpr hn)]
    rw [hX]
    rw [fdRows_exact cs (effTimes (.step dt) n) (by rw [hlen]; exact hn) hch]
  | seq ts =>
    have hts : effTimes (.seq ts) n = ts := rfl
    rw [hts] at hlen hmono hch hX ⊢
    rw [differentiate, if_neg (by rw [hX]; exact Nat.not_lt.mpr hn)]
    rw [if_neg (by rw [hX, hlen]; exact not_not_intro rfl)]
    rw [if_neg (by simp [hmono])]
    rw [fdRows_exact cs ts (by rw [hlen]; exact hn) hch]

/-- Witness for C3: the single-column quadratic `p(tau) = tau^2` sampled at
`0, 1, 2` with unit step; the derivative estimate is exactly `2*tau`. -/
theorem differentiate_exact_on_quadratics_witness :
    (3 ≤ 3 ∧ (effTimes (.step 1) 3).length = 3 ∧
      strictIncr (effTimes (.step 1) 3) = true) ∧
    differentiate ((effTimes (.step 1) 3).map (fun tau =>
        [((1 : ℚ), (0 : ℚ), (0 : ℚ))].map
          (fun p => p.1 * tau ^ 2 + p.2.1 * tau + p.2.2))) (.step 1)
      = .ok ((effTimes (.step 1) 3).map (fun tau =>
        [((1 : ℚ), (0 : ℚ), (0 : ℚ))].map (fun p => 2 * p.1 * tau + p.2.1))) :=
  ⟨⟨by norm_num, by decide,
      by norm_num [strictIncr, effTimes, List.range_succ]⟩,
    differentiate_exact_on_quadratics [((1 : ℚ), (0 : ℚ), (0 : ℚ))] (.step 1) 3
      (by norm_num) (by decide)
      (by norm_num [strictIncr, effTimes, List.range_succ])⟩

/-- C4: for every rectangular n × m trajectory with at least the minimum
stencil width of rows and every valid time argument, `differentiate`
succeeds and returns a derivative matrix of exactly the same shape: n rows
(all samples, including both boundary regions, receive an estimate) of m
entries each. -/
theorem differentiate_shape (X : List (List ℚ)) (t : TimeSpec) (m : Nat)
    (hrect : ∀ r ∈ X, r.length = m) (hn : 3 ≤ X.length) (hv : ValidTime X t) :
    ∃ D, differentiate X t = .ok D ∧ D.length = X.length ∧
      ∀ r ∈ D, r.length = m := by
  cases t with
  | step dt =>
    refine ⟨fdRows X (effTimes (.step dt) X.length), ?_, fdRows_length _ _, ?_⟩
    · rw [differentiate, if_neg (show ¬ X.length < minStencil from Nat.not_lt.mpr hn)]
    · exact fdRows_row_length X _ m hrect hn
  | seq ts =>
    obtain ⟨hlen, hmono⟩ := hv
    refine ⟨fdRows X ts, ?_, fdRows_length _ _, fdRows_row_length X _ m hrect hn⟩
    rw [differentiate, if_neg (show ¬ X.length < minStencil from Nat.not_lt.mpr hn),
      if_neg (not_not_intro hlen), if_neg (by simp [hmono])]

/-- Witness for C4: a 3 × 2 trajectory with unit scalar step. -/
theorem differentiate_shape_witness :
    (∀ r ∈ [[(1 : ℚ), 2], [3, 4], [5, 6]], r.length = 2) ∧
    3 ≤ ([[(1 : ℚ), 2], [3, 4], [5, 6]]).length ∧
    ValidTime [[(1 : ℚ), 2], [3, 4], [5, 6]] (.step 1) ∧
    ∃ D, differentiate [[(1 : ℚ), 2], [3, 4], [5, 6]] (.step 1) = .ok D ∧
      D.length = ([[(1 : ℚ), 2], [3, 4], [5, 6]]).length ∧
      ∀ r ∈ D, r.length = 2 :=
  ⟨by simp, by simp, by norm_num [ValidTime],
    differentiate_shape [[(1 : ℚ), 2], [3, 4], [5, 6]] (.step 1) 2
      (by simp) (by simp) (by norm_num [ValidTime])⟩

/-- C5: `differentiate` fails with `InsufficientSamples` exactly when the
trajectory has fewer rows than the minimum stencil width; it fails with
`ShapeMismatch` exactly when (beyond that) an explicit time sequence has a
length different from the row count; it fails with `NonMonotonicTime`
exactly when (beyond those) the time sequence is not strictly increasing;
and on every other input it succeeds — it never substitutes defaults. -/
theorem differentiate_error_conditions (X : List (List ℚ)) (t : TimeSpec) :
    (differentiate X t = .error .insufficientSamples ↔
      X.length < minStencil) ∧
    (differentiate X t = .error .shapeMismatch ↔
      minStencil ≤ X.length ∧ ∃ ts, t = .seq ts ∧ ts.length ≠ X.length) ∧
    (differentiate X t = .error .nonMonotonicTime ↔
      minStencil ≤ X.length ∧ ∃ ts, t = .seq ts ∧ ts.length = X.length ∧
        strictIncr ts = false) ∧
    ((∃ D, differentiate X t = .ok D) ↔
      minStencil ≤ X.length ∧ ∀ ts, t = .seq ts →
        ts.length = X.length ∧ strictIncr ts = true) := by
  rw [differentiate.eq_def]
  simp only [minStencil]
  by_cases hns : X.length < 3
  · rw [if_pos hns]
    refine ⟨by simp [hns], ?_, ?_, ?_⟩
    · constructor
      · intro h; exact absurd h (by simp)
      · intro ⟨h, _⟩; omega
    · constructor
      · intro h; exact absurd h (by simp)
      · intro ⟨h, _⟩; omega
    · constructor
      · intro ⟨D, hD⟩; exact absurd hD (by simp)
      · intro ⟨h, _⟩; omega
  · rw [if_neg hns]
    cases t with
    | step dt =>
      refine ⟨by simp [hns], ?_, ?_, ?_⟩
      · simp
      · simp
      · simp [Nat.not_lt.mp hns]
    | seq ts =>
      simp only []
      by_cases hsh : ts.length ≠ X.length
      · rw [if_pos hsh]
        refine ⟨by simp [hns], ?_, ?_, ?_⟩
        · simp only [TimeSpec.seq.injEq]
          constructor
          · intro _
            exact ⟨Nat.not_lt.mp hns, ts, rfl, hsh⟩
          · intro _; trivial
        · constructor
          · intro h; exact absurd h (by simp)
          · intro ⟨_, ts', hts', hlen, _⟩
            rw [TimeSpec.seq.injEq] at hts'
            exact absurd (hts' ▸ hlen) hsh
        · constructor
          · intro ⟨D, hD⟩; exact absurd hD (by simp)
          · intro ⟨_, hall⟩
            exact absurd (hall ts rfl).1 hsh
      · rw [if_neg hsh]
        rw [not_ne_iff] at hsh
        by_cases hmono : strictIncr ts = false
        · rw [if_pos hmono]
          refine ⟨by simp [hns], ?_, ?_, ?_⟩
          · constructor
            · intro h; exact absurd h (by simp)
            · intro ⟨_, ts', hts', hlen⟩
              rw [TimeSpec.seq.injEq] at hts'
              exact absurd (hts' ▸ hsh) hlen
          · constructor
            · intro _
              exact ⟨Nat.not_lt.mp hns, ts, rfl, hsh, hmono⟩
            · intro _; trivial
          · constructor
            · intro ⟨D, hD⟩; exact absurd hD (by simp)
            · intro ⟨_, hall⟩
              have := (hall ts rfl).2
              rw [hmono] at this
              exact absurd this (by simp)
        · rw [if_neg hmono]
          rw [Bool.not_eq_false] at hmono
          refine ⟨by simp [hns], ?_, ?_, ?_⟩
          · constructor
            · intro h; exact absurd h (by simp)
            · intro ⟨_, ts', hts', hlen⟩
              rw [TimeSpec.seq.injEq] at hts'
              exact absurd (hts' ▸ hsh) hlen
          · constructor
            · intro h; exact absurd h (by simp)
            · intro ⟨_, ts', hts', _, hmono'⟩
              rw [TimeSpec.seq.injEq] at hts'
              rw [← hts'] at hmono'
              rw [hmono] at hmono'
              exact absurd hmono' (by simp)
          · constructor
            · intro _
              refine ⟨Nat.not_lt.mp hns, ?_⟩
              intro ts' hts'
              rw [TimeSpec.seq.injEq] at hts'
              exact ⟨hts' ▸ hsh, hts' ▸ hmono⟩
            · intro _
              exact ⟨fdRows X ts, rfl⟩

theorem gaussSolve_length (n : Nat) :
    ∀ (rows : List (List ℚ)) (xs : List ℚ),
      gaussSolve n rows = some xs → xs.length = n := by
  induction n with
  | zero =>
    intro rows xs h
    rw [gaussSolve] at h
    rw [← Option.some_inj.mp h]
    rfl
  | succ n ih =>
    intro rows xs h
    rw [gaussSolve] at h
    cases hp : pickPivot rows with
    | none => rw [hp] at h; exact absurd h (by simp)
    | some pr =>
      obtain ⟨p, rest⟩ := pr
      rw [hp] at h
      simp only at h
      cases hg : gaussSolve n (rest.map (fun r =>
          vSub r.tail (vSMul (r.headD 0 / p.headD 0) p.tail))) with
      | none => rw [hg] at h; exact absurd h (by simp)
      | some ys =>
        rw [hg] at h
        simp only [Option.some_inj] at h
        rw [← h, List.length_cons, ih _ _ hg]

theorem getD_replicate {α : Type} (l i : Nat) (a : α) :
    (List.replicate l a).getD i a = a := by
  induction l generalizing i with
  | zero => cases i <;> rfl
  | succ l ih =>
    cases i with
    | zero => rfl
    | succ i => exact ih i

theorem getD_replicate_of_lt {α : Type} (l i : Nat) (a d : α) (h : i < l) :
    (List.replicate l a).getD i d = a := by
  rw [List.getD_eq_getElem _ _ (by simpa using h), List.getElem_replicate]

theorem ridgeMaskedSystem_allTrue (Th : List (List ℚ)) (y : List ℚ) :
    ridgeMaskedSystem Th y 0 (List.replicate (numCols Th) true)
      = normalSystem Th y := by
  rw [ridgeMaskedSystem, normalSystem]
  apply List.map_congr_left
  intro j hj
  rw [List.mem_range] at hj
  have hgj : (List.replicate (numCols Th) true).getD j false = true :=
    getD_replicate_of_lt _ _ _ _ hj
  congr 1
  · apply List.map_congr_left
    intro k hk
    rw [List.mem_range] at hk
    have hgk : (List.replicate (numCols Th) true).getD k false = true :=
      getD_replicate_of_lt _ _ _ _ hk
    rw [hgj, hgk]
    simp
  · rw [hgj]
    simp

theorem map_threshold_zero (xs : List ℚ) :
    xs.map (fun c => if |c| < 0 then 0 else c) = xs := by
  induction xs with
  | nil => rfl
  | cons c rest ih =>
    rw [List.map_cons, if_neg (not_lt.mpr (abs_nonneg c)), ih]

theorem zipWith_threshold_zero (xs : List ℚ) :
    List.zipWith (fun a c => if |c| < (0 : ℚ) then false else a)
      (List.replicate xs.length true) xs = List.replicate xs.length true := by
  induction xs with
  | nil => rfl
  | cons c rest ih =>
    simp only [List.length_cons, List.replicate_succ, List.zipWith_cons_cons]
    rw [if_neg (not_lt.mpr (abs_nonneg c)), ih]

theorem solveColumn_zero_threshold (Th : List (List ℚ)) (y : List ℚ)
    (fuel : Nat) :
    solveColumn Th y 0 (fuel + 1) 0
      = gaussSolve (numCols Th) (normalSystem Th y) := by
  rw [solveColumn, stlsqLoopAux, stlsqStep, ridgeLS, ridgeMaskedSystem_allTrue]
  cases hg : gaussSolve (numCols Th) (normalSystem Th y) with
  | none => rfl
  | some xs =>
    simp only [Option.map_some']
    have hlen : xs.length = numCols Th := gaussSolve_length _ _ _ hg
    rw [map_threshold_zero]
    rw [show List.replicate (numCols Th) true = List.replicate xs.length true by
      rw [hlen]]
    rw [zipWith_threshold_zero]
    rw [if_pos (Or.inl rfl)]

/-- C1: with `threshold = 0` and `ridge_alpha = 0`, `solve` reproduces the
direct (unthresholded, unregularized) least-squares solution of
`Θ ξ = Xdot` exactly, for every feature matrix, derivative matrix and
iteration budget of at least one. -/
theorem stlsq_zero_threshold_is_least_squares (Th Xdot : List (List ℚ))
    (maxIter : Nat) (h : 1 ≤ maxIter) :
    solve Th Xdot 0 maxIter 0 = directLeastSquares Th Xdot := by
  obtain ⟨fuel, rfl⟩ : ∃ f, maxIter = f + 1 := ⟨maxIter - 1, by omega⟩
  rw [solve, directLeastSquares]
  congr 1
  apply List.map_congr_left
  intro j _
  exact solveColumn_zero_threshold Th (colOf Xdot j) fuel

/-- Witness for C1 at a concrete 3 × 2 feature matrix and 3 × 1 derivative
matrix with `max_iter = 1`. -/
theorem stlsq_zero_threshold_is_least_squares_witness :
    1 ≤ 1 ∧
    solve [[(1 : ℚ), 0], [0, 1], [1, 1]] [[(1 : ℚ)], [2], [4]] 0 1 0
      = directLeastSquares [[(1 : ℚ), 0], [0, 1], [1, 1]] [[(1 : ℚ)], [2], [4]] :=
  ⟨le_refl 1,
    stlsq_zero_threshold_is_least_squares [[(1 : ℚ), 0], [0, 1], [1, 1]]
      [[(1 : ℚ)], [2], [4]] 1 (le_refl 1)⟩

/-- C8: the STLSQ iteration always terminates within its budget — for every
input it performs at most `max_iter` iterations, and as soon as an iteration
leaves the active-set pattern unchanged (a fixed point) the loop stops right
there, returning that iteration's thresholded coefficients after exactly one
step. -/
theorem stlsq_iteration_bound_and_fixed_point (Th : List (List ℚ))
    (y : List ℚ) (thr alpha : ℚ) :
    (∀ (maxIter : Nat) (active : List Bool),
      stlsqSteps Th y thr alpha maxIter active ≤ maxIter) ∧
    (∀ (fuel : Nat) (active : List Bool) (xi : List ℚ),
      stlsqStep Th y thr alpha active = some (xi, active) →
      stlsqLoopAux Th y thr alpha (fuel + 1) active = (some xi, 1)) := by
  constructor
  · intro maxIter
    induction maxIter with
    | zero => intro active; rw [stlsqSteps, stlsqLoopAux]
    | succ n ih =>
      intro active
      rw [stlsqSteps, stlsqLoopAux]
      cases hs : stlsqStep Th y thr alpha active with
      | none => simp
      | some pr =>
        obtain ⟨xi, act'⟩ := pr
        simp only
        by_cases hc : act' = active ∨ n = 0
        · rw [if_pos hc]
          simp
        · rw [if_neg hc]
          have hb := ih act'
          rw [stlsqSteps] at hb
          simp only
          omega
  · intro fuel active xi hstep
    rw [stlsqLoopAux, hstep]
    simp

/-- Witness for C8: a 1-feature system whose first iteration is already a
fixed point; the loop stops after one step within the budget. -/
theorem stlsq_iteration_bound_and_fixed_point_witness :
    stlsqSteps [[(1 : ℚ)]] [1] 0 0 3 [true] ≤ 3 ∧
    (stlsqStep [[(1 : ℚ)]] [1] 0 0 [true] = some ([1], [true]) ∧
      stlsqLoopAux [[(1 : ℚ)]] [1] 0 0 1 [true] = (some [1], 1)) := by
  have hstep : stlsqStep [[(1 : ℚ)]] [1] 0 0 [true] = some ([1], [true]) := by
    have hg : ridgeLS [[(1 : ℚ)]] [1] 0 [true] = some [1] := by
      norm_num [ridgeLS, ridgeMaskedSystem, gaussSolve, pickPivot, vSub, vSMul,
        dot, colOf, numCols, List.range_succ]
    rw [stlsqStep, hg]
    norm_num [abs_lt]
  exact ⟨(stlsq_iteration_bound_and_fixed_point [[(1 : ℚ)]] [1] 0 0).1 3 [true],
    hstep,
    (stlsq_iteration_bound_and_fixed_point [[(1 : ℚ)]] [1] 0 0).2 0 [true] [1] hstep⟩

theorem vSub_vSMul_zero (a : List ℚ) :
    ∀ (b : List ℚ), a.length = b.length → vSub a (vSMul 0 b) = a := by
  induction a with
  | nil => intro b _; rfl
  | cons x xs ih =>
    intro b h
    cases b with
    | nil => simp at h
    | cons y ys =>
      simp only [vSub, vSMul, List.map_cons, List.zipWith_cons_cons]
      rw [zero_mul, sub_zero]
      have := ih ys (by simpa using h)
      simp only [vSub, vSMul] at this
      rw [this]

theorem dot_replicate_zero (l : Nat) :
    ∀ ys : List ℚ, dot (List.replicate l 0) ys = 0 := by
  induction l with
  | zero => intro ys; rfl
  | succ l ih =>
    intro ys
    cases ys with
    | nil => rfl
    | cons y ys' =>
      simp only [dot, List.replicate_succ, List.zipWith_cons_cons,
        List.sum_cons, zero_mul]
      have := ih ys'
      rw [dot] at this
      rw [this, add_zero]

theorem ridgeMaskedSystem_allFalse (Th : List (List ℚ)) (y : List ℚ)
    (alpha : ℚ) :
    ridgeMaskedSystem Th y alpha (List.replicate (numCols Th) false)
      = idAug (numCols Th) := by
  rw [ridgeMaskedSystem, idAug]
  apply List.map_congr_left
  intro j _
  have hgj : (List.replicate (numCols Th) false).getD j false = false :=
    getD_replicate _ _ _
  congr 1
  · apply List.map_congr_left
    intro k _
    have hgk : (List.replicate (numCols Th) false).getD k false = false :=
      getD_replicate _ _ _
    rw [hgj, hgk]
    simp
  · rw [hgj]
    simp

theorem gaussSolve_idAug : ∀ l : Nat,
    gaussSolve l (idAug l) = some (List.replicate l 0) := by
  intro l
  induction l with
  | zero => rfl
  | succ l ih =>
    have hsplit : idAug (l + 1)
        = ((1 : ℚ) :: (List.replicate l 0 ++ [0]))
          :: (List.range l).map (fun j =>
              (0 : ℚ) :: (((List.range l).map
                (fun k => if j = k then (1 : ℚ) else 0)) ++ [(0 : ℚ)])) := by
      rw [idAug, List.range_succ_eq_map, List.map_cons, List.map_map]
      congr 1
      · rw [List.map_cons, if_pos rfl, List.map_map, List.cons_append]
        congr 2
        rw [show (List.replicate l (0 : ℚ))
            = (List.range l).map (fun _ => (0 : ℚ)) by
          rw [List.map_const', List.length_range]]
        apply List.map_congr_left
        intro k _
        simp [Function.comp]
      · apply List.map_congr_left
        intro j _
        simp only [Function.comp]
        rw [List.map_cons, List.map_map]
        rw [if_neg (by omega), List.cons_append]
        congr 2
        apply List.map_congr_left
        intro k _
        simp [Function.comp, Nat.succ_inj]
    rw [hsplit, gaussSolve]
    have hpp : pickPivot (((1 : ℚ) :: (List.replicate l 0 ++ [0]))
        :: (List.range l).map (fun j =>
            (0 : ℚ) :: (((List.range l).map
              (fun k => if j = k then (1 : ℚ) else 0)) ++ [(0 : ℚ)])))
        = some ((1 : ℚ) :: (List.replicate l 0 ++ [0]),
            (List.range l).map (fun j =>
              (0 : ℚ) :: (((List.range l).map
                (fun k => if j = k then (1 : ℚ) else 0)) ++ [(0 : ℚ)]))) := by
      rw [pickPivot, if_pos (by norm_num)]
    rw [hpp]
    simp only [List.headD_cons, List.tail_cons]
    have hred : ((List.range l).map (fun j =>
          (0 : ℚ) :: (((List.range l).map
            (fun k => if j = k then (1 : ℚ) else 0)) ++ [(0 : ℚ)]))).map
        (fun r => vSub r.tail (vSMul (r.headD 0 / 1)
          (List.replicate l 0 ++ [0])))
        = idAug l := by
      rw [List.map_map, idAug]
      apply List.map_congr_left
      intro j _
      simp only [Function.comp, List.headD_cons, List.tail_cons]
      rw [zero_div, vSub_vSMul_zero]
      simp [List.length_append, List.length_map, List.length_range]
    rw [hred, ih]
    simp only []
    have hpt : List.replicate l (0 : ℚ) ++ [0] = List.replicate (l + 1) 0 := by
      rw [← List.replicate_succ']
    rw [hpt]
    rw [getD_replicate]
    rw [List.take_replicate]
    rw [show min l (l + 1) = l from by omega]
    rw [dot_replicate_zero]
    norm_num
    rw [← List.replicate_succ]

theorem map_thr_all_small (thr : ℚ) (xs : List ℚ) (h : ∀ c ∈ xs, |c| < thr) :
    xs.map (fun c => if |c| < thr then 0 else c)
      = List.replicate xs.length 0 := by
  induction xs with
  | nil => rfl
  | cons c rest ih =>
    simp only [List.map_cons, List.length_cons, List.replicate_succ]
    rw [if_pos (h c (by simp)), ih (fun c' hc' => h c' (by simp [hc']))]

theorem zip_thr_all_small (thr : ℚ) (xs : List ℚ) (h : ∀ c ∈ xs, |c| < thr) :
    List.zipWith (fun a c => if |c| < thr then false else a)
      (List.replicate xs.length true) xs = List.replicate xs.length false := by
  induction xs with
  | nil => rfl
  | cons c rest ih =>
    simp only [List.length_cons, List.replicate_succ, List.zipWith_cons_cons]
    rw [if_pos (h c (by simp)), ih (fun c' hc' => h c' (by simp [hc']))]

theorem map_thr_replicate_zero (thr : ℚ) (l : Nat) :
    (List.replicate l (0 : ℚ)).map (fun c => if |c| < thr then 0 else c)
      = List.replicate l 0 := by
  rw [List.map_replicate]
  congr 1
  by_cases h : |(0 : ℚ)| < thr <;> simp [h]

theorem zip_thr_replicate (thr : ℚ) (l : Nat) :
    List.zipWith (fun a c => if |c| < thr then false else a)
      (List.replicate l false) (List.replicate l (0 : ℚ))
      = List.replicate l false := by
  induction l with
  | zero => rfl
  | succ l ih =>
    simp only [List.replicate_succ, List.zipWith_cons_cons, ih]
    congr 1
    by_cases h : |(0 : ℚ)| < thr <;> simp [h]

theorem stlsqStep_allFalse (Th : List (List ℚ)) (y : List ℚ) (thr alpha : ℚ) :
    stlsqStep Th y thr alpha (List.replicate (numCols Th) false)
      = some (List.replicate (numCols Th) 0,
          List.replicate (numCols Th) false) := by
  rw [stlsqStep, ridgeLS, ridgeMaskedSystem_allFalse, gaussSolve_idAug]
  simp only [Option.map_some']
  rw [map_thr_replicate_zero, zip_thr_replicate]

theorem stlsqLoopAux_allFalse (Th : List (List ℚ)) (y : List ℚ)
    (thr alpha : ℚ) (fuel : Nat) :
    stlsqLoopAux Th y thr alpha (fuel + 1) (List.replicate (numCols Th) false)
      = (some (List.replicate (numCols Th) 0), 1) := by
  rw [stlsqLoopAux, stlsqStep_allFalse]
  simp

/-- C7: if the first thresholding pass eliminates every feature for a target
column (every coefficient of the initial least-squares solve is below the
threshold in magnitude), the optimizer does not fail: that column's
coefficients are returned as all zeros, both at the single-column level and
in the assembled coefficient matrix. -/
theorem stlsq_all_thresholded_column_zero (Th : List (List ℚ)) (y : List ℚ)
    (thr alpha : ℚ) (maxIter : Nat) (xi : List ℚ)
    (hm : 2 ≤ maxIter)
    (hfirst : ridgeLS Th y alpha (List.replicate (numCols Th) true) = some xi)
    (hsmall : ∀ c ∈ xi, |c| < thr) (hy : y ≠ []) :
    solveColumn Th y thr maxIter alpha
        = some (List.replicate (numCols Th) 0) ∧
    solve Th (y.map (fun v => [v])) thr maxIter alpha
      = some [List.replicate (numCols Th) 0] := by
  have hfirst' := hfirst
  rw [ridgeLS] at hfirst'
  have hlen : xi.length = numCols Th := gaussSolve_length _ _ _ hfirst'
  have hstep1 : stlsqStep Th y thr alpha (List.replicate (numCols Th) true)
      = some (List.replicate (numCols Th) 0,
          List.replicate (numCols Th) false) := by
    rw [stlsqStep, hfirst]
    simp only [Option.map_some']
    rw [show List.replicate (numCols Th) true
        = List.replicate xi.length true from by rw [hlen]]
    rw [map_thr_all_small thr xi hsmall, zip_thr_all_small thr xi hsmall, hlen]
  obtain ⟨fuel, rfl⟩ : ∃ f, maxIter = f + 2 := ⟨maxIter - 2, by omega⟩
  have hcol : solveColumn Th y thr (fuel + 2) alpha
      = some (List.replicate (numCols Th) 0) := by
    rw [solveColumn]
    rw [show fuel + 2 = (fuel + 1) + 1 from rfl]
    rw [stlsqLoopAux, hstep1]
    simp only []
    by_cases hc : List.replicate (numCols Th) false
        = List.replicate (numCols Th) true ∨ fuel + 1 = 0
    · rw [if_pos hc]
    · rw [if_neg hc]
      simp only []
      rw [stlsqLoopAux_allFalse]
  refine ⟨hcol, ?_⟩
  obtain ⟨v, ys, rfl⟩ : ∃ v ys, y = v :: ys := by
    cases y with
    | nil => exact absurd rfl hy
    | cons v ys => exact ⟨v, ys, rfl⟩
  rw [solve]
  rw [show numCols ((v :: ys).map (fun v => [v])) = 1 from rfl]
  rw [show List.range 1 = [0] from rfl]
  have hcol0 : colOf ((v :: ys).map (fun v => [v])) 0 = v :: ys := by
    rw [colOf, List.map_map]
    have hfun : ((fun (r : List ℚ) => r.getD 0 0) ∘ fun v => [v])
        = fun v => v := by
      funext w
      rfl
    rw [hfun, List.map_id']
  rw [List.map_cons, List.map_nil, hcol0, hcol]
  rfl

/-- Witness for C7: a single-feature system whose only coefficient, 1, is
below the threshold 2, so the first pass empties the active set and the
returned column is zero. -/
theorem stlsq_all_thresholded_column_zero_witness :
    (2 ≤ 2 ∧
      ridgeLS [[(1 : ℚ)], [0], [0]] [1, 0, 0] 0
          (List.replicate (numCols [[(1 : ℚ)], [0], [0]]) true) = some [1] ∧
      (∀ c ∈ [(1 : ℚ)], |c| < 2) ∧ ([(1 : ℚ), 0, 0] ≠ [])) ∧
    (solveColumn [[(1 : ℚ)], [0], [0]] [1, 0, 0] 2 2 0
        = some (List.replicate (numCols [[(1 : ℚ)], [0], [0]]) 0) ∧
      solve [[(1 : ℚ)], [0], [0]] ([(1 : ℚ), 0, 0].map (fun v => [v])) 2 2 0
        = some [List.replicate (numCols [[(1 : ℚ)], [0], [0]]) 0]) := by
  have hfirst : ridgeLS [[(1 : ℚ)], [0], [0]] [1, 0, 0] 0
      (List.replicate (numCols [[(1 : ℚ)], [0], [0]]) true) = some [1] := by
    norm_num [ridgeLS, ridgeMaskedSystem, gaussSolve, pickPivot, vSub, vSMul,
      dot, colOf, numCols, List.range_succ, List.replicate]
  have hsmall : ∀ c ∈ [(1 : ℚ)], |c| < 2 := by
    intro c hc
    simp only [List.mem_singleton] at hc
    rw [hc]
    norm_num [abs_lt]
  exact ⟨⟨le_refl 2, hfirst, hsmall, by simp⟩,
    stlsq_all_thresholded_column_zero [[(1 : ℚ)], [0], [0]] [1, 0, 0] 2 0 2 [1]
      (le_refl 2) hfirst hsmall (by simp)⟩

theorem solveColumn_single_pass (Th : List (List ℚ)) (y : List ℚ)
    (thr alpha : ℚ) :
    solveColumn Th y thr 1 alpha
      = (ridgeLS Th y alpha (List.replicate (numCols Th) true)).map
          (fun xi => xi.map (fun c => if |c| < thr then 0 else c)) := by
  rw [solveColumn]
  rw [show (1 : Nat) = 0 + 1 from rfl]
  rw [stlsqLoopAux, stlsqStep]
  cases hg : ridgeLS Th y alpha (List.replicate (numCols Th) true) with
  | none => rfl
  | some xi =>
    simp only [Option.map_some']
    rw [if_pos (Or.inr trivial)]

theorem countNZ_threshold_mono (t1 t2 : ℚ) (h : t1 ≤ t2) (xs : List ℚ) :
    (xs.map (fun c => if |c| < t2 then 0 else c)).countP
        (fun c => decide (¬ c = 0))
      ≤ (xs.map (fun c => if |c| < t1 then 0 else c)).countP
        (fun c => decide (¬ c = 0)) := by
  induction xs with
  | nil => simp
  | cons c rest ih =>
    simp only [List.map_cons, List.countP_cons]
    by_cases h1 : |c| < t1
    · rw [if_pos h1, if_pos (lt_of_lt_of_le h1 h)]
      exact Nat.add_le_add_right ih _
    · by_cases h2 : |c| < t2
      · rw [if_neg h1, if_pos h2]
        have e0 : (if (fun c => decide (¬ c = 0)) (0 : ℚ) = true
            then 1 else 0) = 0 := by simp
        rw [e0, Nat.add_zero]
        exact le_trans ih (Nat.le_add_right _ _)
      · rw [if_neg h1, if_neg h2]
        exact Nat.add_le_add_right ih _

theorem single_pass_aux (Th Xdot : List (List ℚ)) (alpha t1 t2 : ℚ)
    (h : t1 ≤ t2) : ∀ js : List Nat,
    ((optList (js.map (fun j => solveColumn Th (colOf Xdot j) t2 1 alpha))
        = none) ↔
      (optList (js.map (fun j => solveColumn Th (colOf Xdot j) t1 1 alpha))
        = none)) ∧
    nnzOpt (optList (js.map (fun j =>
        solveColumn Th (colOf Xdot j) t2 1 alpha)))
      ≤ nnzOpt (optList (js.map (fun j =>
        solveColumn Th (colOf Xdot j) t1 1 alpha))) := by
  intro js
  induction js with
  | nil => simp [optList, nnzOpt]
  | cons j rest ih =>
    simp only [List.map_cons]
    rw [solveColumn_single_pass, solveColumn_single_pass]
    cases hg : ridgeLS Th (colOf Xdot j) alpha
        (List.replicate (numCols Th) true) with
    | none =>
      simp only [Option.map_none', optList]
      exact ⟨by simp, le_refl _⟩
    | some xi =>
      simp only [Option.map_some', optList]
      cases hr2 : optList (rest.map (fun j =>
          solveColumn Th (colOf Xdot j) t2 1 alpha)) with
      | none =>
        have hr1 : optList (rest.map (fun j =>
            solveColumn Th (colOf Xdot j) t1 1 alpha)) = none := ih.1.mp hr2
        rw [hr1]
        simp [nnzOpt]
      | some M2 =>
        cases hr1 : optList (rest.map (fun j =>
            solveColumn Th (colOf Xdot j) t1 1 alpha)) with
        | none =>
          have : optList (rest.map (fun j =>
              solveColumn Th (colOf Xdot j) t2 1 alpha)) = none :=
            ih.1.mpr hr1
          rw [this] at hr2
          exact absurd hr2 (by simp)
        | some M1 =>
          constructor
          · simp
          · have hsum := ih.2
            rw [hr2, hr1] at hsum
            simp only [nnzOpt, Option.map_some', List.map_cons,
              List.sum_cons] at hsum ⊢
            exact Nat.add_le_add (countNZ_threshold_mono t1 t2 h xi) hsum

/-- C2 counterexample: with the 3 × 3 feature matrix
`[[1,30,0],[0,30,20],[0,0,1]]`, target `[-20,-20,1/2]`, `ridge_alpha = 0`
and `max_iter = 5`, the thresholds 1 ≤ 10 give 0 and 1 nonzero coefficients
respectively: raising the threshold increases the nonzero count, refuting
the claimed monotonicity. -/
theorem sparsity_monotonicity_fails :
    (1 : ℚ) ≤ 10 ∧
    ¬ (nnzOpt (solve [[1, 30, 0], [0, 30, 20], [0, 0, 1]]
          [[-20], [-20], [1 / 2]] 10 5 0)
        ≤ nnzOpt (solve [[1, 30, 0], [0, 30, 20], [0, 0, 1]]
          [[-20], [-20], [1 / 2]] 1 5 0)) := by
  have hr1 : ridgeLS [[1, 30, 0], [0, 30, 20], [0, 0, 1]] [-20, -20, 1 / 2] 0
      [true, true, true] = some [10, -1, 1 / 2] := by
    norm_num [ridgeLS, ridgeMaskedSystem, gaussSolve, pickPivot, vSub, vSMul,
      dot, colOf, numCols, List.range_succ]
  have hr2 : ridgeLS [[1, 30, 0], [0, 30, 20], [0, 0, 1]] [-20, -20, 1 / 2] 0
      [true, true, false] = some [0, -2 / 3, 0] := by
    norm_num [ridgeLS, ridgeMaskedSystem, gaussSolve, pickPivot, vSub, vSMul,
      dot, colOf, numCols, List.range_succ]
  have hr3 : ridgeLS [[1, 30, 0], [0, 30, 20], [0, 0, 1]] [-20, -20, 1 / 2] 0
      [false, false, false] = some [0, 0, 0] := by
    norm_num [ridgeLS, ridgeMaskedSystem, gaussSolve, pickPivot, vSub, vSMul,
      dot, colOf, numCols, List.range_succ]
  have hr4 : ridgeLS [[1, 30, 0], [0, 30, 20], [0, 0, 1]] [-20, -20, 1 / 2] 0
      [true, false, false] = some [-20, 0, 0] := by
    norm_num [ridgeLS, ridgeMaskedSystem, gaussSolve, pickPivot, vSub, vSMul,
      dot, colOf, numCols, List.range_succ]
  have s1 : stlsqStep [[1, 30, 0], [0, 30, 20], [0, 0, 1]] [-20, -20, 1 / 2]
      1 0 [true, true, true] = some ([10, -1, 0], [true, true, false]) := by
    rw [stlsqStep, hr1]
    norm_num [abs_lt]
  have s2 : stlsqStep [[1, 30, 0], [0, 30, 20], [0, 0, 1]] [-20, -20, 1 / 2]
      1 0 [true, true, false] = some ([0, 0, 0], [false, false, false]) := by
    rw [stlsqStep, hr2]
    norm_num [abs_lt]
  have s3 : stlsqStep [[1, 30, 0], [0, 30, 20], [0, 0, 1]] [-20, -20, 1 / 2]
      1 0 [false, false, false]
      = some ([0, 0, 0], [false, false, false]) := by
    rw [stlsqStep, hr3]
    norm_num [abs_lt]
  have s1h : stlsqStep [[1, 30, 0], [0, 30, 20], [0, 0, 1]] [-20, -20, 1 / 2]
      10 0 [true, true, true] = some ([10, 0, 0], [true, false, false]) := by
    rw [stlsqStep, hr1]
    norm_num [abs_lt]
  have s4h : stlsqStep [[1, 30, 0], [0, 30, 20], [0, 0, 1]] [-20, -20, 1 / 2]
      10 0 [true, false, false]
      = some ([-20, 0, 0], [true, false, false]) := by
    rw [stlsqStep, hr4]
    norm_num [abs_lt]
  have hcolLow : solveColumn [[1, 30, 0], [0, 30, 20], [0, 0, 1]]
      [-20, -20, 1 / 2] 1 5 0 = some [0, 0, 0] := by
    rw [solveColumn]
    rw [show numCols [[(1 : ℚ), 30, 0], [0, 30, 20], [0, 0, 1]] = 3 from rfl]
    rw [show (List.replicate 3 true) = [true, true, true] from rfl]
    rw [show (5 : ℕ) = 4 + 1 from rfl, stlsqLoopAux, s1]
    norm_num
    rw [show (4 : ℕ) = 3 + 1 from rfl, stlsqLoopAux, s2]
    norm_num
    rw [show (3 : ℕ) = 2 + 1 from rfl, stlsqLoopAux, s3]
    norm_num
  have hcolHigh : solveColumn [[1, 30, 0], [0, 30, 20], [0, 0, 1]]
      [-20, -20, 1 / 2] 10 5 0 = some [-20, 0, 0] := by
    rw [solveColumn]
    rw [show numCols [[(1 : ℚ), 30, 0], [0, 30, 20], [0, 0, 1]] = 3 from rfl]
    rw [show (List.replicate 3 true) = [true, true, true] from rfl]
    rw [show (5 : ℕ) = 4 + 1 from rfl, stlsqLoopAux, s1h]
    norm_num
    rw [show (4 : ℕ) = 3 + 1 from rfl, stlsqLoopAux, s4h]
    norm_num
  have hsolveLow : solve [[1, 30, 0], [0, 30, 20], [0, 0, 1]]
      [[-20], [-20], [1 / 2]] 1 5 0 = some [[0, 0, 0]] := by
    rw [solve]
    rw [show numCols [[(-20 : ℚ)], [-20], [1 / 2]] = 1 from rfl]
    rw [show List.range 1 = [0] from rfl]
    simp only [List.map_cons, List.map_nil]
    rw [show colOf [[(-20 : ℚ)], [-20], [1 / 2]] 0 = [-20, -20, 1 / 2] from by
      norm_num [colOf]]
    rw [hcolLow]
    rfl
  have hsolveHigh : solve [[1, 30, 0], [0, 30, 20], [0, 0, 1]]
      [[-20], [-20], [1 / 2]] 10 5 0 = some [[-20, 0, 0]] := by
    rw [solve]
    rw [show numCols [[(-20 : ℚ)], [-20], [1 / 2]] = 1 from rfl]
    rw [show List.range 1 = [0] from rfl]
    simp only [List.map_cons, List.map_nil]
    rw [show colOf [[(-20 : ℚ)], [-20], [1 / 2]] 0 = [-20, -20, 1 / 2] from by
      norm_num [colOf]]
    rw [hcolHigh]
    rfl
  refine ⟨by norm_num, ?_⟩
  rw [hsolveLow, hsolveHigh]
  norm_num [nnzOpt, List.countP, List.countP.go]

/-- C2 amended: with a single iteration (`max_iter = 1`, one least-squares
solve followed by one thresholding pass), increasing the threshold never
increases the number of nonzero coefficients; over multiple iterations the
re-fitting on different active sets can break this monotonicity, as the
counterexample shows. -/
theorem sparsity_monotone_single_pass (Th Xdot : List (List ℚ))
    (alpha t1 t2 : ℚ) (h : t1 ≤ t2) :
    nnzOpt (solve Th Xdot t2 1 alpha) ≤ nnzOpt (solve Th Xdot t1 1 alpha) := by
  rw [solve, solve]
  exact (single_pass_aux Th Xdot alpha t1 t2 h (List.range (numCols Xdot))).2

/-- Witness for the amended C2 at a concrete input. -/
theorem sparsity_monotone_single_pass_witness :
    (0 : ℚ) ≤ 1 ∧
    nnzOpt (solve [[(1 : ℚ)]] [[(1 : ℚ)]] 1 1 0)
      ≤ nnzOpt (solve [[(1 : ℚ)]] [[(1 : ℚ)]] 0 1 0) :=
  ⟨by norm_num,
    sparsity_monotone_single_pass [[(1 : ℚ)]] [[(1 : ℚ)]] 0 0 1 (by norm_num)⟩
/-- Witness for C5: the empty trajectory triggers `InsufficientSamples`, and
a 3-row trajectory with a decreasing time sequence triggers
`NonMonotonicTime`. -/
theorem differentiate_error_conditions_witness :
    differentiate ([] : List (List ℚ)) (.step 1)
        = .error .insufficientSamples ∧
    differentiate [[(1 : ℚ)], [2], [3]] (.seq [3, 2, 1])
        = .error .nonMonotonicTime :=
  ⟨(differentiate_error_conditions [] (.step 1)).1.mpr (by decide),
    (differentiate_error_conditions [[(1 : ℚ)], [2], [3]] (.seq [3, 2, 1])).2.2.1.mpr
      ⟨by decide, [3, 2, 1], rfl, by decide,
        by norm_num [strictIncr]⟩⟩
